import Mathlib

/-
Shallow embedding of the meme-coin trading bot in src/index.js.

Modelling conventions:
- JS numbers (prices, market caps, sentiment scores) are modelled as rationals.
- The JS Map `trackedCoins` is modelled as an association list in insertion
  order; `Map.get` / `Map.set` / `Map.delete` become `mapGet` / `mapSet` /
  `mapDelete`.  `Map.set` on an existing key updates the value in place and
  keeps the insertion position, exactly as in JS.
- Tweet texts and coin symbols are lists of characters.  The sentiment score
  produced by the external `natural` library for a tweet is an input datum
  carried alongside its text.
- External I/O (the DexScreener lookups performed by `getCoinData`) is
  modelled as data: `buyCoin` and `sellCoin` receive the result of their own
  internal `getCoinData` call as an `Option Snapshot` argument, and the cycle
  `runDailyOperations` receives an oracle `fetch : ℕ → List Char → Option
  Snapshot` giving the result of the k-th `getCoinData` call of the cycle for
  the queried symbol.  Telegram messages and log lines carry no state and are
  dropped.
-/

/-- Result of `getCoinData`: `{ price, marketCap }` (src/index.js:92-107). -/
structure Snapshot where
  price : ℚ
  marketCap : ℚ
deriving DecidableEq, Inhabited

/-- An entry of `trackedCoins`: `{ buyPrice, targetMultiplier, amount }`
(src/index.js:52, set at src/index.js:135). -/
structure Position where
  buyPrice : ℚ
  targetMultiplier : ℚ
  amount : ℚ
deriving DecidableEq, Inhabited

/-- A tweet as consumed by `analyzeTweets`: its text together with the
sentiment score the external analyzer returns for it (src/index.js:66-67). -/
structure Tweet where
  text : List Char
  sentiment : ℚ
deriving DecidableEq, Inhabited

/-- An element of `potentialCoins`: `{ coin, sentiment, tweet }`
(src/index.js:79). -/
structure Candidate where
  coin : List Char
  sentiment : ℚ
  tweet : List Char
deriving DecidableEq, Inhabited

/-- The bot's mutable state: the `trackedCoins` map (insertion-ordered
association list) and the `dailyOperations` counter (src/index.js:52-53). -/
structure BotState where
  trackedCoins : List (List Char × Position)
  dailyOperations : ℕ
deriving DecidableEq, Inhabited

/-- `const MAX_DAILY_OPERATIONS = 5` (src/index.js:54). -/
def MAX_DAILY_OPERATIONS : ℕ := 5

/-- `const TARGET_MULTIPLIER_MIN = 2` (src/index.js:55). -/
def TARGET_MULTIPLIER_MIN : ℚ := 2

/-- `const TARGET_MULTIPLIER_MAX = 5` (src/index.js:56). -/
def TARGET_MULTIPLIER_MAX : ℚ := 5

/-- `const MARKET_CAP_THRESHOLD = 5000` (src/index.js:57). -/
def MARKET_CAP_THRESHOLD : ℚ := 5000

/-- `trackedCoins.get(key)`. -/
def mapGet : List (List Char × Position) → List Char → Option Position
  | [], _ => none
  | (k, v) :: rest, key => if k = key then some v else mapGet rest key

/-- `trackedCoins.set(key, v)`: updates in place if the key is present
(keeping its insertion position), otherwise appends. -/
def mapSet : List (List Char × Position) → List Char → Position → List (List Char × Position)
  | [], key, v => [(key, v)]
  | (k, w) :: rest, key, v =>
    if k = key then (k, v) :: rest else (k, w) :: mapSet rest key v

/-- `trackedCoins.delete(key)`: removes the entry for the key, if present. -/
def mapDelete : List (List Char × Position) → List Char → List (List Char × Position)
  | [], _ => []
  | (k, w) :: rest, key => if k = key then rest else (k, w) :: mapDelete rest key

/-- Does `hay` start with `needle`? (helper for substring search). -/
def beginsWith : List Char → List Char → Bool
  | _, [] => true
  | [], _ :: _ => false
  | c :: cs, n :: ns => c = n && beginsWith cs ns

/-- `hay.includes(needle)` on character lists. -/
def containsSub (needle : List Char) : List Char → Bool
  | [] => needle.isEmpty
  | c :: rest => beginsWith (c :: rest) needle || containsSub needle rest

/-- The deny-list test of src/index.js:70:
`text.toLowerCase().includes('scam') || text.toLowerCase().includes('rug')`.
(ASCII lowercasing; the deny-list terms themselves are ASCII.) -/
def denyListed (text : List Char) : Bool :=
  containsSub ("scam".toList) (text.map Char.toLower) ||
    containsSub ("rug".toList) (text.map Char.toLower)

/-- Is `c` an ASCII uppercase letter (the `[A-Z]` character class)? -/
def isUpperAZ (c : Char) : Bool := 'A' ≤ c && c ≤ 'Z'

/-- The maximal leading run of `[A-Z]` characters. -/
def takeUpper : List Char → List Char
  | [] => []
  | c :: rest => if isUpperAZ c then c :: takeUpper rest else []

/-- `text.match(/\$[A-Z]+/)`: the leftmost occurrence of a `$` sigil followed
by at least one uppercase letter, returning the matched characters
(src/index.js:76). -/
def firstCoinMatch : List Char → Option (List Char)
  | [] => none
  | c :: rest =>
    if c = '$' && (match rest with | [] => false | r :: _ => isUpperAZ r) then
      some ('$' :: takeUpper rest)
    else
      firstCoinMatch rest

/-- The per-tweet body of the `analyzeTweets` loop (src/index.js:65-81):
skip the tweet if its sentiment is negative or it matches the deny-list,
otherwise emit a candidate for the first `$[A-Z]+` match, if any. -/
def processTweet (t : Tweet) : Option Candidate :=
  if t.sentiment < 0 ∨ denyListed t.text = true then none
  else
    match firstCoinMatch t.text with
    | none => none
    | some cs => some ⟨cs, t.sentiment, t.text⟩

/-- The `potentialCoins` list built by `analyzeTweets` before sorting. -/
def candidatesOf (tweets : List Tweet) : List Candidate :=
  tweets.filterMap processTweet

/-- Insert a candidate into a descending-sorted list, after all earlier
candidates with sentiment greater than or equal to its own. -/
def insertDesc (c : Candidate) : List Candidate → List Candidate
  | [] => [c]
  | d :: rest => if d.sentiment ≤ c.sentiment then c :: d :: rest else d :: insertDesc c rest

/-- Stable descending sort by sentiment, modelling
`potentialCoins.sort((a, b) => b.sentiment - a.sentiment)` (src/index.js:84;
ECMAScript `Array.prototype.sort` is stable). -/
def sortDesc : List Candidate → List Candidate
  | [] => []
  | c :: rest => insertDesc c (sortDesc rest)

/-- `analyzeTweets` (src/index.js:60-89): filter the tweets, extract
candidates, and sort them by sentiment descending.  A failed Twitter search
is the same as an empty tweet list (the catch branch returns `[]`). -/
def analyzeTweets (tweets : List Tweet) : List Candidate :=
  sortDesc (candidatesOf tweets)

/-- `s.replace('$', '')`: removes the first `'$'` character, if any. -/
def stripDollar : List Char → List Char
  | [] => []
  | c :: rest => if c = '$' then rest else c :: stripDollar rest

/-- `buyCoin(coin, amountInSol)` (src/index.js:110-143).  `coinData` is the
result of the `getCoinData(coin)` call the function makes.  Rejects when the
data is unavailable, the market cap is outside
`[MARKET_CAP_THRESHOLD * 0.5, MARKET_CAP_THRESHOLD * 1.5]`, or the price is
above `0.01`; otherwise records the position via `trackedCoins.set` and
increments `dailyOperations`.  Returns the JS return value and the new
state. -/
def buyCoin (st : BotState) (coin : List Char) (amountInSol : ℚ)
    (coinData : Option Snapshot) : Bool × BotState :=
  match coinData with
  | none => (false, st)
  | some d =>
    if d.marketCap > MARKET_CAP_THRESHOLD * (3/2) ∨
        d.marketCap < MARKET_CAP_THRESHOLD * (1/2) then
      (false, st)
    else if d.price > 1/100 then
      (false, st)
    else
      (true, ⟨mapSet st.trackedCoins coin ⟨d.price, TARGET_MULTIPLIER_MIN, amountInSol⟩,
              st.dailyOperations + 1⟩)

/-- `sellCoin(coin)` (src/index.js:146-167).  `coinData` is the result of its
`getCoinData(coin)` call.  Returns `false` when the data is unavailable.  When
the coin is not tracked, the destructuring of `trackedCoins.get(coin)`
(`undefined`) throws a `TypeError`, which the surrounding `try`/`catch`
swallows, returning `false` with the state unchanged; this is the
`mapGet = none` branch.  Otherwise sells (deletes the position and increments
`dailyOperations`) iff `currentPrice >= buyPrice * targetMultiplier`. -/
def sellCoin (st : BotState) (coin : List Char) (coinData : Option Snapshot) :
    Bool × BotState :=
  match coinData with
  | none => (false, st)
  | some d =>
    match mapGet st.trackedCoins coin with
    | none => (false, st)
    | some pos =>
      if d.price ≥ pos.buyPrice * pos.targetMultiplier then
        (true, ⟨mapDelete st.trackedCoins coin, st.dailyOperations + 1⟩)
      else
        (false, st)

/-- Phase B of `runDailyOperations` (src/index.js:197-202): call `sellCoin`
on each coin of the given key list in order, threading the state and the
`getCoinData` call counter. -/
def sweep (fetch : ℕ → List Char → Option Snapshot) :
    BotState → List (List Char) → ℕ → BotState
  | st, [], _ => st
  | st, c :: rest, k => sweep fetch (sellCoin st c (fetch k c)).2 rest (k + 1)

/-- The buy admission check of src/index.js:192:
`price > 0 && price < 0.01 && marketCap >= MARKET_CAP_THRESHOLD * 0.5 &&
marketCap <= MARKET_CAP_THRESHOLD * 1.5`. -/
def buyGate (d : Snapshot) : Prop :=
  0 < d.price ∧ d.price < 1/100 ∧
    MARKET_CAP_THRESHOLD * (1/2) ≤ d.marketCap ∧
    d.marketCap ≤ MARKET_CAP_THRESHOLD * (3/2)

instance buyGateDec (d : Snapshot) : Decidable (buyGate d) := by
  unfold buyGate
  exact inferInstance

/-- Phase A of `runDailyOperations` (src/index.js:170-194): the daily-limit
guard, candidate analysis, the market-data fetch for the top candidate, and
the conditional buy.  Returns `none` when the function returns early (limit
reached, no candidates, or no data for the top candidate) — in the source
those `return` statements also skip the sell loop — and otherwise the state
after the conditional buy together with the index of the next `getCoinData`
call of the cycle. -/
def phaseA (st : BotState) (tweets : List Tweet)
    (fetch : ℕ → List Char → Option Snapshot) : Option (BotState × ℕ) :=
  if st.dailyOperations ≥ MAX_DAILY_OPERATIONS * 2 then none
  else
    match analyzeTweets tweets with
    | [] => none
    | top :: _ =>
      match fetch 0 (stripDollar top.coin) with
      | none => none
      | some d =>
        if buyGate d then
          some ((buyCoin st (stripDollar top.coin) (1/10) (fetch 1 (stripDollar top.coin))).2, 2)
        else
          some (st, 1)

/-- `runDailyOperations` (src/index.js:170-203): Phase A, then — unless Phase
A returned early — the sell sweep over the keys of `trackedCoins` as they
stand after Phase A.  The JS `for (const [coin] of trackedCoins)` loop starts
after the `await buyCoin(...)` completed, and the only mutation during the
loop is `sellCoin` deleting the entry currently visited, so iterating the
key list taken at loop entry is exactly the JS `Map` iterator behaviour. -/
def runDailyOperations (st : BotState) (tweets : List Tweet)
    (fetch : ℕ → List Char → Option Snapshot) : BotState :=
  match phaseA st tweets fetch with
  | none => st
  | some (st1, k) => sweep fetch st1 (st1.trackedCoins.map Prod.fst) k

/-- A sequence of cycles: each trace element is the tweet list returned by
the Twitter search and the market-data oracle for that cycle. -/
def runTrace : BotState → List (List Tweet × (ℕ → List Char → Option Snapshot)) → BotState
  | st, [] => st
  | st, (tw, f) :: rest => runTrace (runDailyOperations st tw f) rest

/-- The keys of the position map are pairwise distinct (what it means for
the map to bind each symbol to at most one position). -/
abbrev keysNodup (st : BotState) : Prop := (st.trackedCoins.map Prod.fst).Nodup

/-- The descending-order relation used for the candidate sort. -/
def scoreGe (a b : Candidate) : Prop := b.sentiment ≤ a.sentiment

/-- A concrete positive tweet naming `$FOO`. -/
def fooTweet : Tweet := ⟨"buy $FOO now".toList, 1⟩

/-- A concrete positive tweet naming `$BAR`. -/
def barTweet : Tweet := ⟨"go $BAR".toList, 1⟩

/-- A concrete positive tweet naming `$AAA`. -/
def aaaTweet : Tweet := ⟨"pump $AAA".toList, 1⟩

/-- A concrete positive tweet naming `$EEE`. -/
def eeeTweet : Tweet := ⟨"get $EEE".toList, 1⟩

/-- A concrete positive tweet naming `$FFF`. -/
def fffTweet : Tweet := ⟨"ape $FFF".toList, 1⟩

/-- A concrete positive tweet naming `$ZED`. -/
def zedTweet : Tweet := ⟨"big $ZED".toList, 1⟩

/-- Oracle: both Phase A fetches see price `1/200`, cap `5000`; Phase B
fetches see no data. -/
def fetchA : ℕ → List Char → Option Snapshot := fun k _ =>
  if k = 0 ∨ k = 1 then some ⟨1/200, 5000⟩ else none

/-- Oracle: both Phase A fetches see price `1/125`, cap `5000`; Phase B
fetches see no data. -/
def fetchB : ℕ → List Char → Option Snapshot := fun k _ =>
  if k = 0 ∨ k = 1 then some ⟨1/125, 5000⟩ else none

/-- Oracle: Phase A fetches see price `1/250`, cap `5000`; the first Phase B
fetch sees the doubled price `1/125`, later ones no data. -/
def fetchRound : ℕ → List Char → Option Snapshot := fun k _ =>
  if k = 0 ∨ k = 1 then some ⟨1/250, 5000⟩
  else if k = 2 then some ⟨1/125, 5000⟩ else none

/-- Oracle: Phase A fetches see price `1/250`, cap `5000`; Phase B fetches
see no data. -/
def fetchHold : ℕ → List Char → Option Snapshot := fun k _ =>
  if k = 0 ∨ k = 1 then some ⟨1/250, 5000⟩ else none

/-- Oracle: the admission-gate fetch of the cycle sees price `1/200`, the
fetch inside `buyCoin` sees price `0`, Phase B fetches see no data. -/
def fetchZed : ℕ → List Char → Option Snapshot := fun k _ =>
  if k = 0 then some ⟨1/200, 5000⟩
  else if k = 1 then some ⟨0, 5000⟩ else none

/-- Six cycles: four buy-and-sell-same-cycle round trips (+2 operations
each), one buy that holds (+1), then one cycle that buys and also sells the
held position (+3 in total with the final hold). -/
def budgetTrace : List (List Tweet × (ℕ → List Char → Option Snapshot)) :=
  [([aaaTweet], fetchRound), ([aaaTweet], fetchRound), ([aaaTweet], fetchRound),
    ([aaaTweet], fetchRound), ([eeeTweet], fetchHold), ([fffTweet], fetchRound)]

lemma mapGet_mapSet_self (m : List (List Char × Position)) (k : List Char) (v : Position) :
    mapGet (mapSet m k v) k = some v := by
  induction m with
  | nil => simp [mapSet, mapGet]
  | cons p rest ih =>
    obtain ⟨a, w⟩ := p
    by_cases h : a = k
    · simp [mapSet, mapGet, h]
    · simp [mapSet, mapGet, h, ih]

lemma mapGet_mapSet_ne (m : List (List Char × Position)) (k k' : List Char) (v : Position)
    (h : k' ≠ k) : mapGet (mapSet m k v) k' = mapGet m k' := by
  have hkk : ¬ k = k' := fun hh => h hh.symm
  induction m with
  | nil => simp [mapSet, mapGet, hkk]
  | cons p rest ih =>
    obtain ⟨a, w⟩ := p
    by_cases ha : a = k
    · subst ha
      simp [mapSet, mapGet, hkk]
    · by_cases ha' : a = k'
      · simp [mapSet, mapGet, ha, ha', h]
      · simp [mapSet, mapGet, ha, ha', ih]

lemma mapGet_mapDelete_ne (m : List (List Char × Position)) (k k' : List Char)
    (h : k' ≠ k) : mapGet (mapDelete m k) k' = mapGet m k' := by
  have hkk : ¬ k = k' := fun hh => h hh.symm
  induction m with
  | nil => simp [mapDelete]
  | cons p rest ih =>
    obtain ⟨a, w⟩ := p
    by_cases ha : a = k
    · subst ha
      simp [mapDelete, mapGet, hkk]
    · by_cases ha' : a = k'
      · simp [mapDelete, mapGet, ha, ha', h]
      · simp [mapDelete, mapGet, ha, ha', ih]

lemma mapGet_eq_none_iff (m : List (List Char × Position)) (k : List Char) :
    mapGet m k = none ↔ k ∉ m.map Prod.fst := by
  induction m with
  | nil => simp [mapGet]
  | cons p rest ih =>
    obtain ⟨a, w⟩ := p
    by_cases ha : a = k
    · simp [mapGet, ha]
    · have hka : ¬ k = a := fun hh => ha hh.symm
      simp [mapGet, ha, ih, hka]

lemma mem_keys_of_mapGet_some (m : List (List Char × Position)) (k : List Char)
    (v : Position) (h : mapGet m k = some v) : k ∈ m.map Prod.fst := by
  by_contra hmem
  rw [← mapGet_eq_none_iff] at hmem
  rw [h] at hmem
  exact Option.noConfusion hmem

lemma mapGet_mapDelete_self (m : List (List Char × Position)) (k : List Char)
    (h : (m.map Prod.fst).Nodup) : mapGet (mapDelete m k) k = none := by
  induction m with
  | nil => simp [mapDelete, mapGet]
  | cons p rest ih =>
    obtain ⟨a, w⟩ := p
    simp only [List.map_cons, List.nodup_cons] at h
    by_cases ha : a = k
    · subst ha
      simp only [mapDelete, if_pos rfl]
      exact (mapGet_eq_none_iff rest a).mpr h.1
    · simp [mapDelete, mapGet, ha, ih h.2]

lemma mem_keys_mapSet (m : List (List Char × Position)) (k x : List Char) (v : Position) :
    x ∈ (mapSet m k v).map Prod.fst ↔ x = k ∨ x ∈ m.map Prod.fst := by
  induction m with
  | nil => simp [mapSet]
  | cons p rest ih =>
    obtain ⟨a, w⟩ := p
    by_cases ha : a = k
    · subst ha
      rw [show mapSet ((a, w) :: rest) a v = (a, v) :: rest by simp [mapSet]]
      simp only [List.map_cons, List.mem_cons]
      tauto
    · rw [show mapSet ((a, w) :: rest) k v = (a, w) :: mapSet rest k v by simp [mapSet, ha]]
      simp only [List.map_cons, List.mem_cons, ih]
      tauto

lemma nodup_keys_mapSet (m : List (List Char × Position)) (k : List Char) (v : Position)
    (h : (m.map Prod.fst).Nodup) : ((mapSet m k v).map Prod.fst).Nodup := by
  induction m with
  | nil => simp [mapSet]
  | cons p rest ih =>
    obtain ⟨a, w⟩ := p
    rw [List.map_cons, List.nodup_cons] at h
    by_cases ha : a = k
    · subst ha
      rw [show mapSet ((a, w) :: rest) a v = (a, v) :: rest by simp [mapSet]]
      rw [List.map_cons, List.nodup_cons]
      exact h
    · rw [show mapSet ((a, w) :: rest) k v = (a, w) :: mapSet rest k v by simp [mapSet, ha]]
      rw [List.map_cons, List.nodup_cons]
      refine ⟨?_, ih h.2⟩
      intro hmem
      rcases (mem_keys_mapSet rest k a v).mp hmem with rfl | hmem'
      · exact ha rfl
      · exact h.1 hmem'

lemma mem_keys_mapDelete (m : List (List Char × Position)) (k x : List Char)
    (h : x ∈ (mapDelete m k).map Prod.fst) : x ∈ m.map Prod.fst := by
  induction m with
  | nil => simp [mapDelete] at h
  | cons p rest ih =>
    obtain ⟨a, w⟩ := p
    by_cases ha : a = k
    · subst ha
      rw [show mapDelete ((a, w) :: rest) a = rest by simp [mapDelete]] at h
      rw [List.map_cons]
      exact List.mem_cons_of_mem _ h
    · rw [show mapDelete ((a, w) :: rest) k = (a, w) :: mapDelete rest k by
          simp [mapDelete, ha]] at h
      rw [List.map_cons, List.mem_cons] at h ⊢
      rcases h with h0 | h'
      · exact Or.inl h0
      · exact Or.inr (ih h')

lemma nodup_keys_mapDelete (m : List (List Char × Position)) (k : List Char)
    (h : (m.map Prod.fst).Nodup) : ((mapDelete m k).map Prod.fst).Nodup := by
  induction m with
  | nil => simp [mapDelete]
  | cons p rest ih =>
    obtain ⟨a, w⟩ := p
    rw [List.map_cons, List.nodup_cons] at h
    by_cases ha : a = k
    · subst ha
      rw [show mapDelete ((a, w) :: rest) a = rest by simp [mapDelete]]
      exact h.2
    · rw [show mapDelete ((a, w) :: rest) k = (a, w) :: mapDelete rest k by
          simp [mapDelete, ha]]
      rw [List.map_cons, List.nodup_cons]
      exact ⟨fun hmem => h.1 (mem_keys_mapDelete rest k a hmem), ih h.2⟩

lemma mem_insertDesc (c x : Candidate) (l : List Candidate) :
    x ∈ insertDesc c l ↔ x = c ∨ x ∈ l := by
  induction l with
  | nil => simp [insertDesc]
  | cons d rest ih =>
    by_cases hc : d.sentiment ≤ c.sentiment
    · simp only [insertDesc, if_pos hc, List.mem_cons]
      try tauto
    · simp only [insertDesc, if_neg hc, List.mem_cons, ih]
      try tauto

lemma pairwise_insertDesc (c : Candidate) (l : List Candidate)
    (h : List.Pairwise scoreGe l) : List.Pairwise scoreGe (insertDesc c l) := by
  induction l with
  | nil => simp [insertDesc, scoreGe]
  | cons d rest ih =>
    rw [List.pairwise_cons] at h
    obtain ⟨hd, hrest⟩ := h
    by_cases hc : d.sentiment ≤ c.sentiment
    · rw [insertDesc, if_pos hc]
      refine List.Pairwise.cons ?_ (List.Pairwise.cons hd hrest)
      intro x hx
      rcases List.mem_cons.mp hx with rfl | hx'
      · exact hc
      · exact le_trans (hd x hx') hc
    · rw [insertDesc, if_neg hc]
      refine List.Pairwise.cons ?_ (ih hrest)
      intro x hx
      rcases (mem_insertDesc c x rest).mp hx with rfl | hx'
      · exact le_of_lt (lt_of_not_le hc)
      · exact hd x hx'

lemma pairwise_sortDesc (l : List Candidate) : List.Pairwise scoreGe (sortDesc l) := by
  induction l with
  | nil => simp [sortDesc]
  | cons c rest ih => exact pairwise_insertDesc c (sortDesc rest) ih

lemma filter_insertDesc (s : ℚ) (c : Candidate) (l : List Candidate) :
    (insertDesc c l).filter (fun d => decide (d.sentiment = s)) =
      if c.sentiment = s then c :: l.filter (fun d => decide (d.sentiment = s))
      else l.filter (fun d => decide (d.sentiment = s)) := by
  induction l with
  | nil => by_cases hcs : c.sentiment = s <;> simp [insertDesc, hcs]
  | cons d rest ih =>
    by_cases hc : d.sentiment ≤ c.sentiment
    · rw [insertDesc, if_pos hc]
      by_cases hcs : c.sentiment = s <;> simp [List.filter_cons, hcs]
    · rw [insertDesc, if_neg hc]
      by_cases hds : d.sentiment = s
      · have hcs : ¬ c.sentiment = s := by
          intro hh
          exact hc (le_of_eq (hds.trans hh.symm))
        simp [List.filter_cons, hds, hcs, ih]
      · by_cases hcs : c.sentiment = s <;> simp [List.filter_cons, hds, hcs, ih]

lemma filter_sortDesc (s : ℚ) (l : List Candidate) :
    (sortDesc l).filter (fun d => decide (d.sentiment = s)) =
      l.filter (fun d => decide (d.sentiment = s)) := by
  induction l with
  | nil => simp [sortDesc]
  | cons c rest ih =>
    rw [sortDesc, filter_insertDesc]
    by_cases hcs : c.sentiment = s <;> simp [List.filter_cons, hcs, ih]

lemma keysNodup_buyCoin (st : BotState) (coin : List Char) (a : ℚ)
    (d : Option Snapshot) (h : keysNodup st) : keysNodup (buyCoin st coin a d).2 := by
  cases d with
  | none => exact h
  | some dd =>
    unfold buyCoin
    dsimp only
    by_cases h1 : dd.marketCap > MARKET_CAP_THRESHOLD * (3/2) ∨
        dd.marketCap < MARKET_CAP_THRESHOLD * (1/2)
    · rw [if_pos h1]
      exact h
    · rw [if_neg h1]
      by_cases h2 : dd.price > 1/100
      · rw [if_pos h2]
        exact h
      · rw [if_neg h2]
        exact nodup_keys_mapSet st.trackedCoins coin _ h

lemma keysNodup_sellCoin (st : BotState) (coin : List Char)
    (d : Option Snapshot) (h : keysNodup st) : keysNodup (sellCoin st coin d).2 := by
  cases d with
  | none => exact h
  | some dd =>
    unfold sellCoin
    dsimp only
    cases hg : mapGet st.trackedCoins coin with
    | none => exact h
    | some pos =>
      dsimp only
      by_cases hs : dd.price ≥ pos.buyPrice * pos.targetMultiplier
      · rw [if_pos hs]
        exact nodup_keys_mapDelete st.trackedCoins coin h
      · rw [if_neg hs]
        exact h

lemma keysNodup_sweep (fetch : ℕ → List Char → Option Snapshot) (l : List (List Char))
    (st : BotState) (k : ℕ) (h : keysNodup st) : keysNodup (sweep fetch st l k) := by
  induction l generalizing st k with
  | nil => exact h
  | cons c rest ih =>
    rw [sweep]
    exact ih _ _ (keysNodup_sellCoin st c (fetch k c) h)

lemma keysNodup_phaseA (st : BotState) (tweets : List Tweet)
    (fetch : ℕ → List Char → Option Snapshot) (st1 : BotState) (k : ℕ)
    (hp : phaseA st tweets fetch = some (st1, k)) (h : keysNodup st) : keysNodup st1 := by
  unfold phaseA at hp
  by_cases hguard : st.dailyOperations ≥ MAX_DAILY_OPERATIONS * 2
  · rw [if_pos hguard] at hp
    exact absurd hp (by simp)
  · rw [if_neg hguard] at hp
    cases hA : analyzeTweets tweets with
    | nil =>
      rw [hA] at hp
      exact absurd hp (by simp)
    | cons top rest =>
      rw [hA] at hp
      dsimp only at hp
      cases hf : fetch 0 (stripDollar top.coin) with
      | none =>
        rw [hf] at hp
        exact absurd hp (by simp)
      | some d =>
        rw [hf] at hp
        dsimp only at hp
        by_cases hg : buyGate d
        · rw [if_pos hg] at hp
          simp only [Option.some.injEq, Prod.mk.injEq] at hp
          rw [← hp.1]
          exact keysNodup_buyCoin st (stripDollar top.coin) (1/10)
            (fetch 1 (stripDollar top.coin)) h
        · rw [if_neg hg] at hp
          simp only [Option.some.injEq, Prod.mk.injEq] at hp
          rw [← hp.1]
          exact h

/-- C5: for every tracked position and every available current snapshot,
`sellCoin` sells if and only if the current price is at least
`buyPrice * targetMultiplier` (non-strict, so the boundary case sells); on a
sell the position is removed from the map and the operation count is
incremented, otherwise it returns `false` with the state unchanged. -/
theorem sellCoin_sell_iff (st : BotState) (coin : List Char) (pos : Position)
    (d : Snapshot) (h : mapGet st.trackedCoins coin = some pos) :
    sellCoin st coin (some d) =
      if d.price ≥ pos.buyPrice * pos.targetMultiplier then
        (true, ⟨mapDelete st.trackedCoins coin, st.dailyOperations + 1⟩)
      else
        (false, st) := by
  unfold sellCoin
  dsimp only
  rw [h]

/-- Witness for C5, exercising the boundary case: a position bought at
`1/200` with multiplier `2` is sold at exactly `1/100`. -/
theorem sellCoin_sell_iff_witness :
    sellCoin ⟨[("POS".toList, ⟨1/200, 2, 1/10⟩)], 0⟩ ("POS".toList) (some ⟨1/100, 0⟩) =
      (true, ⟨[], 1⟩) := by
  rw [sellCoin_sell_iff ⟨[("POS".toList, ⟨1/200, 2, 1/10⟩)], 0⟩ ("POS".toList)
    ⟨1/200, 2, 1/10⟩ ⟨1/100, 0⟩ (by with_unfolding_all decide)]
  with_unfolding_all decide

/-- C7: when market data is unavailable for a tracked position, `sellCoin`
returns `false` (hold, never sell), the position stays in the map unchanged,
and the operation count is unchanged. -/
theorem sellCoin_noData_holds (st : BotState) (coin : List Char) (pos : Position)
    (h : mapGet st.trackedCoins coin = some pos) :
    sellCoin st coin none = (false, st) ∧
      mapGet (sellCoin st coin none).2.trackedCoins coin = some pos ∧
      (sellCoin st coin none).2.dailyOperations = st.dailyOperations :=
  ⟨rfl, h, rfl⟩

/-- Witness for C7 at a concrete tracked position. -/
theorem sellCoin_noData_witness :
    sellCoin ⟨[("NOP".toList, ⟨1/200, 2, 1/10⟩)], 3⟩ ("NOP".toList) none =
      (false, ⟨[("NOP".toList, ⟨1/200, 2, 1/10⟩)], 3⟩) :=
  (sellCoin_noData_holds ⟨[("NOP".toList, ⟨1/200, 2, 1/10⟩)], 3⟩ ("NOP".toList)
    ⟨1/200, 2, 1/10⟩ (by with_unfolding_all decide)).1

/-- C10: calling `sellCoin` on a symbol with no tracked position returns
`false` and leaves the state unchanged, for any market data: the JS
`TypeError` thrown by destructuring `undefined` is caught by the function's
`try`/`catch`, which returns `false` without mutating anything. -/
theorem sellCoin_untracked_safe (st : BotState) (coin : List Char)
    (d : Option Snapshot) (h : mapGet st.trackedCoins coin = none) :
    sellCoin st coin d = (false, st) := by
  cases d with
  | none => rfl
  | some dd =>
    unfold sellCoin
    dsimp only
    rw [h]

/-- Witness for C10: selling an untracked coin with data available. -/
theorem sellCoin_untracked_witness :
    sellCoin ⟨[], 4⟩ ("GHO".toList) (some ⟨1, 1⟩) = (false, ⟨[], 4⟩) :=
  sellCoin_untracked_safe ⟨[], 4⟩ ("GHO".toList) (some ⟨1, 1⟩)
    (by with_unfolding_all decide)

/-- C8: a post with negative sentiment, or whose text contains a deny-list
term ("scam" or "rug", case-insensitively) even with strongly positive
sentiment, is excluded by the ranker regardless of symbol content: it yields
no candidate, and removing it from the input does not change the output of
`analyzeTweets`. -/
theorem analyzeTweets_excludes_suspicious (t : Tweet) (pre post : List Tweet)
    (h : t.sentiment < 0 ∨ denyListed t.text = true) :
    processTweet t = none ∧
      analyzeTweets (pre ++ t :: post) = analyzeTweets (pre ++ post) := by
  have hp : processTweet t = none := by
    unfold processTweet
    rw [if_pos h]
  refine ⟨hp, ?_⟩
  unfold analyzeTweets candidatesOf
  rw [List.filterMap_append, List.filterMap_append, List.filterMap_cons_none hp]

/-- Witness for C8: a post naming `$GOOD` with sentiment 5 but containing
"rug" yields no candidate. -/
theorem analyzeTweets_excludes_witness :
    processTweet ⟨"$GOOD but rug".toList, 5⟩ = none :=
  (analyzeTweets_excludes_suspicious ⟨"$GOOD but rug".toList, 5⟩ [] []
    (Or.inr (by with_unfolding_all decide))).1

/-- C9: the ranker's output is sorted in descending order of sentiment;
candidates with equal scores keep the relative order of their originating
posts (for every score, filtering the output at that score gives exactly the
pre-sort candidate list filtered at that score); empty input yields empty
output, and input in which every post is rejected also yields empty output,
not an error. -/
theorem analyzeTweets_sorted_stable (tweets : List Tweet) :
    List.Pairwise scoreGe (analyzeTweets tweets) ∧
      (∀ s : ℚ, (analyzeTweets tweets).filter (fun c => decide (c.sentiment = s)) =
        (candidatesOf tweets).filter (fun c => decide (c.sentiment = s))) ∧
      analyzeTweets [] = [] ∧
      ((∀ t ∈ tweets, processTweet t = none) → analyzeTweets tweets = []) := by
  refine ⟨pairwise_sortDesc (candidatesOf tweets),
    fun s => filter_sortDesc s (candidatesOf tweets), rfl, fun hall => ?_⟩
  unfold analyzeTweets
  rw [show candidatesOf tweets = [] from List.filterMap_eq_nil_iff.mpr hall]
  rfl

/-- Witness for C9 on a concrete tweet list with a tie: two posts with equal
score keep their original order, a higher-score post comes first. -/
theorem analyzeTweets_sorted_witness :
    List.Pairwise scoreGe
      (analyzeTweets [⟨"x $AA x".toList, 1⟩, ⟨"y $BB y".toList, 3⟩, ⟨"z $CC z".toList, 1⟩]) ∧
    analyzeTweets [⟨"x $AA x".toList, 1⟩, ⟨"y $BB y".toList, 3⟩, ⟨"z $CC z".toList, 1⟩] =
      [⟨"$BB".toList, 3, "y $BB y".toList⟩, ⟨"$AA".toList, 1, "x $AA x".toList⟩,
        ⟨"$CC".toList, 1, "z $CC z".toList⟩] :=
  ⟨(analyzeTweets_sorted_stable
      [⟨"x $AA x".toList, 1⟩, ⟨"y $BB y".toList, 3⟩, ⟨"z $CC z".toList, 1⟩]).1,
    by with_unfolding_all decide⟩

/-- C4 (amended): the admission check performed by `buyCoin` itself, on the
snapshot it fetches, is exactly `marketCap ∈ [2500, 7500]` and
`price ≤ 0.01`; the conjuncts `price > 0` and the strict `price < 0.01` are
checked only by `runDailyOperations` on its own, separately fetched
snapshot, before calling `buyCoin`.  With unavailable data `buyCoin`
rejects. -/
theorem buyCoin_admission (st : BotState) (coin : List Char) (a : ℚ) (d : Snapshot) :
    buyCoin st coin a none = (false, st) ∧
      buyCoin st coin a (some d) =
        (if MARKET_CAP_THRESHOLD * (1/2) ≤ d.marketCap ∧
            d.marketCap ≤ MARKET_CAP_THRESHOLD * (3/2) ∧ d.price ≤ 1/100 then
          (true, ⟨mapSet st.trackedCoins coin ⟨d.price, TARGET_MULTIPLIER_MIN, a⟩,
                  st.dailyOperations + 1⟩)
        else
          (false, st)) := by
  refine ⟨rfl, ?_⟩
  unfold buyCoin
  dsimp only
  by_cases h1 : d.marketCap > MARKET_CAP_THRESHOLD * (3/2) ∨
      d.marketCap < MARKET_CAP_THRESHOLD * (1/2)
  · rw [if_pos h1, if_neg]
    intro hc
    rcases h1 with h1 | h1
    · exact absurd h1 (not_lt.mpr hc.2.1)
    · exact absurd h1 (not_lt.mpr hc.1)
  · rw [if_neg h1]
    push_neg at h1
    by_cases h2 : d.price > 1/100
    · rw [if_pos h2, if_neg]
      intro hc
      exact absurd h2 (not_lt.mpr hc.2.2)
    · rw [if_neg h2, if_pos ⟨h1.2, h1.1, not_lt.mp h2⟩]

/-- Counterexample to C4 as stated: the snapshot `{price: 0, marketCap:
5000}` violates the conjunct `price > 0` of the claimed admission predicate,
yet `buyCoin` returns `true` and creates a position for it. -/
theorem buyCoin_accepts_zero_price :
    buyCoin ⟨[], 0⟩ ("ZRO".toList) (1/10) (some ⟨0, 5000⟩) =
      (true, ⟨[("ZRO".toList, ⟨0, TARGET_MULTIPLIER_MIN, 1/10⟩)], 1⟩) ∧
      ¬ (0 : ℚ) < (Snapshot.mk 0 5000).price := by
  with_unfolding_all decide

/-- C6 (amended): every position is created with `targetMultiplier` fixed to
`TARGET_MULTIPLIER_MIN = 2` (which lies in the configured `[2, 5]` range)
and `entryPrice ≤ 0.01`, and position fields are never mutated afterwards —
`sellCoin` only ever removes the entry for its own coin, leaving every other
binding untouched; but `entryPrice > 0` is NOT guaranteed (see the
counterexample `position_zero_entry_price`). -/
theorem position_fields_fixed (st : BotState) (coin coin' : List Char) (a : ℚ)
    (d : Snapshot) (dd : Option Snapshot) (h : keysNodup st) (hne : coin' ≠ coin) :
    ((buyCoin st coin a (some d)).1 = true →
        mapGet (buyCoin st coin a (some d)).2.trackedCoins coin =
            some ⟨d.price, TARGET_MULTIPLIER_MIN, a⟩ ∧
          d.price ≤ 1/100) ∧
      (TARGET_MULTIPLIER_MIN = 2 ∧ (2 : ℚ) ≤ TARGET_MULTIPLIER_MIN ∧
        TARGET_MULTIPLIER_MIN ≤ TARGET_MULTIPLIER_MAX ∧ TARGET_MULTIPLIER_MAX = 5) ∧
      (mapGet (sellCoin st coin dd).2.trackedCoins coin = mapGet st.trackedCoins coin ∨
        mapGet (sellCoin st coin dd).2.trackedCoins coin = none) ∧
      mapGet (sellCoin st coin dd).2.trackedCoins coin' = mapGet st.trackedCoins coin' := by
  refine ⟨?_, ⟨rfl, le_refl _, by norm_num [TARGET_MULTIPLIER_MIN, TARGET_MULTIPLIER_MAX],
    rfl⟩, ?_, ?_⟩
  · intro hb
    unfold buyCoin at hb ⊢
    dsimp only at hb ⊢
    by_cases h1 : d.marketCap > MARKET_CAP_THRESHOLD * (3/2) ∨
        d.marketCap < MARKET_CAP_THRESHOLD * (1/2)
    · rw [if_pos h1] at hb
      exact absurd hb (by simp)
    · rw [if_neg h1] at hb ⊢
      by_cases h2 : d.price > 1/100
      · rw [if_pos h2] at hb
        exact absurd hb (by simp)
      · rw [if_neg h2]
        dsimp only
        exact ⟨mapGet_mapSet_self st.trackedCoins coin _, not_lt.mp h2⟩
  · cases dd with
    | none => exact Or.inl rfl
    | some ddd =>
      unfold sellCoin
      dsimp only
      cases hg : mapGet st.trackedCoins coin with
      | none => exact Or.inl hg
      | some pos =>
        dsimp only
        by_cases hs : ddd.price ≥ pos.buyPrice * pos.targetMultiplier
        · rw [if_pos hs]
          exact Or.inr (mapGet_mapDelete_self st.trackedCoins coin h)
        · rw [if_neg hs]
          exact Or.inl hg
  · cases dd with
    | none => rfl
    | some ddd =>
      unfold sellCoin
      dsimp only
      cases hg : mapGet st.trackedCoins coin with
      | none => rfl
      | some pos =>
        dsimp only
        by_cases hs : ddd.price ≥ pos.buyPrice * pos.targetMultiplier
        · rw [if_pos hs]
          exact mapGet_mapDelete_ne st.trackedCoins coin coin' hne
        · rw [if_neg hs]

/-- Witness for C6 (amended): a `sellCoin` call with no data leaves an
unrelated binding unchanged. -/
theorem position_fields_fixed_witness :
    mapGet (sellCoin ⟨[("KEY".toList, ⟨1/200, 2, 1/10⟩)], 0⟩ ("KEY".toList) none).2.trackedCoins
        ("OTH".toList) =
      mapGet [("KEY".toList, Position.mk (1/200) 2 (1/10))] ("OTH".toList) :=
  (position_fields_fixed ⟨[("KEY".toList, ⟨1/200, 2, 1/10⟩)], 0⟩ ("KEY".toList)
    ("OTH".toList) (1/10) ⟨1, 1⟩ none (by with_unfolding_all decide)
    (by with_unfolding_all decide)).2.2.2

/-- Counterexample to C6 as stated: in a cycle whose admission-gate fetch
sees price `1/200` but whose `buyCoin`-internal fetch sees price `0`, a
position with `entryPrice = 0` is created, violating `entryPrice > 0`. -/
theorem position_zero_entry_price :
    runDailyOperations ⟨[], 0⟩ [zedTweet] fetchZed =
      ⟨[("ZED".toList, ⟨0, TARGET_MULTIPLIER_MIN, 1/10⟩)], 1⟩ ∧
      ¬ (0 : ℚ) < (Position.mk 0 TARGET_MULTIPLIER_MIN (1/10)).buyPrice := by
  with_unfolding_all decide

/-- C1 (amended): the position map binds each symbol to at most one position
— key uniqueness is preserved by every cycle — but `buyCoin` does not reject
a symbol that already has an open position (see the counterexample
`buyCoin_overwrites_position`). -/
theorem keysNodup_runDailyOperations (st : BotState) (tweets : List Tweet)
    (fetch : ℕ → List Char → Option Snapshot) (h : keysNodup st) :
    keysNodup (runDailyOperations st tweets fetch) := by
  unfold runDailyOperations
  cases hp : phaseA st tweets fetch with
  | none => exact h
  | some p =>
    obtain ⟨st1, k⟩ := p
    exact keysNodup_sweep fetch (st1.trackedCoins.map Prod.fst) st1 k
      (keysNodup_phaseA st tweets fetch st1 k hp h)

/-- Witness for C1 (amended) on a concrete cycle that buys `FOO`. -/
theorem keysNodup_runDailyOperations_witness :
    keysNodup (runDailyOperations ⟨[], 0⟩ [fooTweet] fetchA) :=
  keysNodup_runDailyOperations ⟨[], 0⟩ [fooTweet] fetchA (by with_unfolding_all decide)

/-- Counterexample to C1 as stated: after one cycle, `FOO` is tracked with
entry price `1/200`; a second cycle that buys `FOO` again is not rejected —
it succeeds (the operation count rises to 2) and replaces the position's
fields with the new entry price `1/125`. -/
theorem buyCoin_overwrites_position :
    runTrace ⟨[], 0⟩ [([fooTweet], fetchA)] =
      ⟨[("FOO".toList, ⟨1/200, TARGET_MULTIPLIER_MIN, 1/10⟩)], 1⟩ ∧
    runTrace ⟨[], 0⟩ [([fooTweet], fetchA), ([fooTweet], fetchB)] =
      ⟨[("FOO".toList, ⟨1/125, TARGET_MULTIPLIER_MIN, 1/10⟩)], 2⟩ := by
  with_unfolding_all decide

/-- C2 (amended): the operation budget is enforced only at the start of a
cycle — a cycle beginning with `dailyOperations ≥ MAX_DAILY_OPERATIONS * 2`
performs no operation and leaves the state unchanged — and each successful
buy or sell increments the count by exactly 1 while rejected or failed
attempts leave it unchanged; within a single cycle, however, the count is
not re-checked and can exceed the limit (see `budget_limit_exceeded`), and
no reset of the counter exists in the code. -/
theorem budget_guard_and_increments (st : BotState) (tweets : List Tweet)
    (fetch : ℕ → List Char → Option Snapshot) (coin : List Char) (a : ℚ)
    (d : Option Snapshot) :
    (st.dailyOperations ≥ MAX_DAILY_OPERATIONS * 2 → runDailyOperations st tweets fetch = st) ∧
      (buyCoin st coin a d).2.dailyOperations =
        st.dailyOperations + (if (buyCoin st coin a d).1 = true then 1 else 0) ∧
      (sellCoin st coin d).2.dailyOperations =
        st.dailyOperations + (if (sellCoin st coin d).1 = true then 1 else 0) := by
  refine ⟨fun hguard => ?_, ?_, ?_⟩
  · unfold runDailyOperations phaseA
    rw [if_pos hguard]
  · cases d with
    | none => simp [buyCoin]
    | some dd =>
      unfold buyCoin
      dsimp only
      by_cases h1 : dd.marketCap > MARKET_CAP_THRESHOLD * (3/2) ∨
          dd.marketCap < MARKET_CAP_THRESHOLD * (1/2)
      · rw [if_pos h1]
        simp
      · rw [if_neg h1]
        by_cases h2 : dd.price > 1/100
        · rw [if_pos h2]
          simp
        · rw [if_neg h2]
          simp
  · cases d with
    | none => simp [sellCoin]
    | some dd =>
      unfold sellCoin
      dsimp only
      cases hg : mapGet st.trackedCoins coin with
      | none => simp
      | some pos =>
        dsimp only
        by_cases hs : dd.price ≥ pos.buyPrice * pos.targetMultiplier
        · rw [if_pos hs]
          simp
        · rw [if_neg hs]
          simp

/-- Witness for C2 (amended): a cycle starting at the limit (10 operations)
leaves the state unchanged. -/
theorem budget_guard_witness :
    runDailyOperations ⟨[], 10⟩ [fooTweet] fetchA = ⟨[], 10⟩ :=
  (budget_guard_and_increments ⟨[], 10⟩ [fooTweet] fetchA [] 0 none).1 (by decide)

/-- Counterexample to C2 as stated: a reachable six-cycle run drives
`dailyOperations` to 11, exceeding the limit `MAX_DAILY_OPERATIONS * 2 = 10`
— the sixth cycle starts at 9, buys (10), and then sells a previously held
position (11) without re-checking the limit. -/
theorem budget_limit_exceeded :
    (runTrace ⟨[], 0⟩ budgetTrace).dailyOperations = 11 ∧
      ¬ (runTrace ⟨[], 0⟩ budgetTrace).dailyOperations ≤ MAX_DAILY_OPERATIONS * 2 := by
  with_unfolding_all decide

/-- C3 (amended): Phase B sweeps the position set as it stands after Phase
A: `runDailyOperations` runs its sell loop over the keys of the tracked map
after the Phase-A buy, so every coin tracked at that point — including one
bought in Phase A of the same cycle — is in the list handed to the sweep. -/
theorem phaseB_sweeps_postPhaseA (st : BotState) (tweets : List Tweet)
    (fetch : ℕ → List Char → Option Snapshot) (st1 : BotState) (k : ℕ)
    (c : List Char) (p : Position)
    (hp : phaseA st tweets fetch = some (st1, k))
    (hc : mapGet st1.trackedCoins c = some p) :
    runDailyOperations st tweets fetch = sweep fetch st1 (st1.trackedCoins.map Prod.fst) k ∧
      c ∈ st1.trackedCoins.map Prod.fst := by
  constructor
  · unfold runDailyOperations
    rw [hp]
  · exact mem_keys_of_mapGet_some st1.trackedCoins c p hc

/-- Witness for C3 (amended): in a concrete cycle buying `FOO` from an empty
state, the sweep list contains `FOO`. -/
theorem phaseB_sweeps_witness :
    runDailyOperations ⟨[], 0⟩ [fooTweet] fetchA =
      sweep fetchA ⟨[("FOO".toList, ⟨1/200, TARGET_MULTIPLIER_MIN, 1/10⟩)], 1⟩
        (([("FOO".toList, Position.mk (1/200) TARGET_MULTIPLIER_MIN (1/10))]).map Prod.fst) 2 ∧
      "FOO".toList ∈
        ([("FOO".toList, Position.mk (1/200) TARGET_MULTIPLIER_MIN (1/10))]).map Prod.fst :=
  phaseB_sweeps_postPhaseA ⟨[], 0⟩ [fooTweet] fetchA
    ⟨[("FOO".toList, ⟨1/200, TARGET_MULTIPLIER_MIN, 1/10⟩)], 1⟩ 2 ("FOO".toList)
    ⟨1/200, TARGET_MULTIPLIER_MIN, 1/10⟩ (by with_unfolding_all decide)
    (by with_unfolding_all decide)

/-- Counterexample to C3 as stated: starting from an empty state, a single
cycle buys `BAR` (operation count 1) and then sells that same just-bought
position in its own Phase B when the fresh sweep fetch shows the doubled
price — ending with no tracked position and 2 operations.  Under the claim,
`BAR` could not have been evaluated for sale before the next cycle and would
still be tracked. -/
theorem same_cycle_sell :
    runDailyOperations ⟨[], 0⟩ [barTweet] fetchRound = ⟨[], 2⟩ := by
  with_unfolding_all decide
